import Mathlib

/-!
Verification of the cron expression parser (package `cron`).

The Go source is shallowly embedded below.  Strings are `List Char`,
`uint8` values are `Nat` with an explicit `% 256` where the source's
arithmetic can wrap, and the `for` loop of `stepRange` (which the source
does not prove terminating) is given an explicit fuel argument: a result
of `none` means the loop is still running after `fuel` iterations, and
`some r` means the call returned `r`.  All functions with fuel are
monotone in it in the obvious sense.  Errors are represented by the
inductive `Err`, one constructor per `errors.New`/`fmt.Errorf` site,
carrying exactly the data interpolated into the Go error message.
-/

set_option maxRecDepth 8000

namespace Cron

deriving instance DecidableEq for Except

/-- Field identifiers, from the source's `const ( minute uint8 = iota ... )`. -/
def minute : Nat := 0

def hour : Nat := 1

def dayOfMonth : Nat := 2

def month : Nat := 3

def dayOfWeek : Nat := 4

def command : Nat := 5

/-- The source's `validRanges` map; a missing key yields Go's zero value `{0, 0}`. -/
def validRanges (field : Nat) : Nat × Nat :=
  if field = minute then (0, 59)
  else if field = hour then (0, 23)
  else if field = dayOfMonth then (1, 31)
  else if field = month then (1, 12)
  else if field = dayOfWeek then (0, 7)
  else (0, 0)

/-- Key/value lookup, modelling Go map access on the name tables. -/
def lookupT : List (List Char × Nat) → List Char → Option Nat
  | [], _ => none
  | (k, v) :: rest, t => if t = k then some v else lookupT rest t

/-- The `month` entries of the source's `validNames` map. -/
def monthTable : List (List Char × Nat) :=
  [(['j', 'a', 'n'], 1), (['f', 'e', 'b'], 2), (['m', 'a', 'r'], 3), (['a', 'p', 'r'], 4),
   (['m', 'a', 'y'], 5), (['j', 'u', 'n'], 6), (['j', 'u', 'l'], 7), (['a', 'u', 'g'], 8),
   (['s', 'e', 'p'], 9), (['o', 'c', 't'], 10), (['n', 'o', 'v'], 11), (['d', 'e', 'c'], 12)]

/-- The `dayOfWeek` entries of the source's `validNames` map. -/
def dowTable : List (List Char × Nat) :=
  [(['m', 'o', 'n'], 1), (['t', 'u', 'e'], 2), (['w', 'e', 'd'], 3), (['t', 'h', 'u'], 4),
   (['f', 'r', 'i'], 5), (['s', 'a', 't'], 6), (['s', 'u', 'n'], 7)]

/-- The `month` entry of the source's `validNames` map. -/
def monthNames (t : List Char) : Option Nat := lookupT monthTable t

/-- The `dayOfWeek` entry of the source's `validNames` map. -/
def dowNames (t : List Char) : Option Nat := lookupT dowTable t

/-- The source's two-level `validNames` lookup: a `none` covers both a field
with no name table and a miss in the table. -/
def validNames (field : Nat) (t : List Char) : Option Nat :=
  if field = month then monthNames t
  else if field = dayOfWeek then dowNames t
  else none

/-- One error constructor per error-producing site in the source, carrying the
data the Go code interpolates into the message. -/
inductive Err where
  | invalidExpression : Err
  | fieldErr : Nat → Err → Err
  | invalidStepRange : List Char → Err
  | invalidRange : List Char → Err
  | invalidRangeStart : List Char → Err
  | invalidRangeEnd : List Char → Err
  | invalidRangeOrder : Nat → Nat → Err
  | outsideOfRange : Nat → Nat → Err
  | invalidValue : List Char → Err
deriving DecidableEq, Repr

/-- The `Expression` struct of the source (slices of `uint8` become `List Nat`). -/
structure Expression where
  Minute : List Nat
  Hour : List Nat
  DayOfMonth : List Nat
  Month : List Nat
  DayOfWeek : List Nat
  Command : List Char
deriving DecidableEq, Repr

/-- Go's zero value `Expression{}`, returned alongside every error in `Parse`. -/
def zeroExpr : Expression := ⟨[], [], [], [], [], []⟩

/-- ASCII lower-casing of one character, as Go's `strings.ToLower` acts on the
ASCII inputs relevant here. -/
def toLowerChar (c : Char) : Char :=
  if 'A' ≤ c ∧ c ≤ 'Z' then Char.ofNat (c.toNat + 32) else c

/-- `strings.ToLower` on an ASCII string. -/
def toLower (s : List Char) : List Char := s.map toLowerChar

/-- Go's decimal digit test for `strconv.ParseInt` with base 10. -/
def isDigitCh (c : Char) : Bool := '0' ≤ c && c ≤ '9'

/-- Base-10 digit accumulation of `strconv.ParseInt`; `none` on any non-digit. -/
def parseDigitsAux : List Char → Nat → Option Nat
  | [], acc => some acc
  | c :: cs, acc =>
    if isDigitCh c then parseDigitsAux cs (acc * 10 + (c.toNat - '0'.toNat)) else none

/-- Digit-string parse: nonempty and all base-10 digits, else `none`. -/
def parseDigits (s : List Char) : Option Nat :=
  if s = [] then none else parseDigitsAux s 0

/-- `strconv.ParseInt(s, 10, 8)`: optional sign, base-10 digits, and the
signed 8-bit range check `-128 ≤ v ≤ 127`; `none` is a non-nil error. -/
def parseInt8 (s : List Char) : Option Int :=
  match s with
  | [] => none
  | c :: rest =>
    if c = '+' then (parseDigits rest).bind (fun n => if n ≤ 127 then some (n : Int) else none)
    else if c = '-' then
      (parseDigits rest).bind (fun n => if n ≤ 128 then some (-(n : Int)) else none)
    else (parseDigits (c :: rest)).bind (fun n => if n ≤ 127 then some (n : Int) else none)

/-- The source's `atoi`: `ParseInt(s, 10, 8)` followed by the unchecked cast
`uint8(x)`, i.e. reduction modulo 256 (negative results wrap). -/
def atoi (s : List Char) : Except Unit Nat :=
  match parseInt8 s with
  | some v => Except.ok ((v % 256).toNat)
  | none => Except.error ()

/-- The loop of the source's `stepRange`: `for x := start; x <= end; x += step`
with `uint8` wrap-around on `x += step`.  `none` means the loop has not
finished within `fuel` iterations (for `step = 0` it never does). -/
def stepRangeGo : Nat → Nat → Nat → Nat → Option (List Nat)
  | 0, _, _, _ => none
  | fuel + 1, x, e, step =>
    if x ≤ e then (stepRangeGo fuel ((x + step) % 256) e step).map (fun l => x :: l)
    else some []

/-- `strings.Split(s, sep)` for a one-character separator: split on every
occurrence, keeping empty pieces. -/
def splitAll (sep : Char) : List Char → List (List Char)
  | [] => [[]]
  | c :: cs =>
    if c = sep then [] :: splitAll sep cs
    else
      match splitAll sep cs with
      | [] => [[c]]
      | p :: ps => (c :: p) :: ps

/-- `strings.SplitN(s, sep, n)` for a one-character separator: at most `n`
pieces, the last piece keeping the remaining text verbatim. -/
def splitN (sep : Char) (n : Nat) (s : List Char) : List (List Char) :=
  match n, s with
  | 0, _ => []
  | 1, s => [s]
  | _ + 2, [] => [[]]
  | n + 2, c :: cs =>
    if c = sep then [] :: splitN sep (n + 1) cs
    else
      match splitN sep (n + 2) cs with
      | [] => [[c]]
      | p :: ps => (c :: p) :: ps

/-- The source's `expandAny`: `*`, with the day-of-week minimum bumped to
avoid listing Sunday as both 0 and 7. -/
def expandAny (fuel field mn mx : Nat) : Option (Except Err (List Nat)) :=
  (stepRangeGo fuel (if field = dayOfWeek then (mn + 1) % 256 else mn) mx 1).map Except.ok

/-- The source's `expandAnyStepRange`: `*/N`. -/
def expandAnyStepRange (fuel : Nat) (s : List Char) (mn mx : Nat) :
    Option (Except Err (List Nat)) :=
  match atoi (s.drop 2) with
  | Except.error _ => some (Except.error (Err.invalidStepRange s))
  | Except.ok step => (stepRangeGo fuel mn mx step).map Except.ok

/-- Tail of the source's `expandRange` after the step has been extracted:
parse the end, validate `start ≤ end` and the bounds, then run `stepRange`. -/
def finishRange (fuel start : Nat) (endStr : List Char) (step mn mx : Nat) :
    Option (Except Err (List Nat)) :=
  match atoi endStr with
  | Except.error _ => some (Except.error (Err.invalidRangeEnd endStr))
  | Except.ok e =>
    if start > e then some (Except.error (Err.invalidRangeOrder start e))
    else if mn > start ∨ start > mx ∨ mn > e ∨ e > mx then
      some (Except.error (Err.outsideOfRange mn mx))
    else (stepRangeGo fuel start e step).map Except.ok

/-- The source's `expandRange`: `A-B` or `A-B/N` (default step 1). -/
def expandRange (fuel : Nat) (s : List Char) (mn mx : Nat) :
    Option (Except Err (List Nat)) :=
  match splitAll '-' s with
  | [p0, p1] =>
    match atoi p0 with
    | Except.error _ => some (Except.error (Err.invalidRangeStart p0))
    | Except.ok start =>
      if '/' ∈ p1 then
        match splitAll '/' p1 with
        | [e0, st0] =>
          match atoi st0 with
          | Except.error _ => some (Except.error (Err.invalidStepRange s))
          | Except.ok step => finishRange fuel start e0 step mn mx
        | _ => some (Except.error (Err.invalidStepRange s))
      else finishRange fuel start p1 1 mn mx
  | _ => some (Except.error (Err.invalidRange s))

/-- The source's `expandSingle`: name-table lookup first (case-insensitive,
no bounds re-check), then numeric parse with bounds check. -/
def expandSingle (s : List Char) (field mn mx : Nat) : Except Err (List Nat) :=
  match validNames field (toLower s) with
  | some x => Except.ok [x]
  | none =>
    match atoi s with
    | Except.ok x =>
      if mn > x ∨ x > mx then Except.error (Err.outsideOfRange mn mx)
      else Except.ok [x]
    | Except.error _ => Except.error (Err.invalidValue s)

/-- The list loop inside the source's `expand`: expand each comma piece with
`go` and concatenate, returning the first error. -/
def expandListAux (go : List Char → Option (Except Err (List Nat))) :
    List (List Char) → Option (Except Err (List Nat))
  | [] => some (Except.ok [])
  | p :: ps =>
    match go p with
    | none => none
    | some (Except.error e) => some (Except.error e)
    | some (Except.ok v) =>
      match expandListAux go ps with
      | none => none
      | some (Except.error e) => some (Except.error e)
      | some (Except.ok vs) => some (Except.ok (v ++ vs))

/-- The source's `expand`: list split first, then the `switch` over `*`,
`*/`, `-`, and single values.  The comma pieces are re-submitted to `expand`
itself (at one less fuel), exactly as the Go code recurses. -/
def expand : Nat → List Char → Nat → Nat → Nat → Option (Except Err (List Nat))
  | 0, _, _, _, _ => none
  | fuel + 1, s, field, mn, mx =>
    if 1 < (splitAll ',' s).length then
      expandListAux (fun p => expand fuel p field mn mx) (splitAll ',' s)
    else if s = ['*'] then expandAny fuel field mn mx
    else if s.take 2 = ['*', '/'] then expandAnyStepRange fuel s mn mx
    else if '-' ∈ s then expandRange fuel s mn mx
    else some (expandSingle s field mn mx)

/-- The field loop of the source's `Parse`, over the list of field indices:
each error is wrapped with its field's numeric index (`fmt.Errorf("%d: %w")`). -/
def expandFields (fuel : Nat) (parts : List (List Char)) :
    List Nat → Option (Except Err (List (List Nat)))
  | [] => some (Except.ok [])
  | i :: is =>
    match expand fuel (parts.getD i []) i (validRanges i).1 (validRanges i).2 with
    | none => none
    | some (Except.error e) => some (Except.error (Err.fieldErr i e))
    | some (Except.ok v) =>
      match expandFields fuel parts is with
      | none => none
      | some (Except.error e) => some (Except.error e)
      | some (Except.ok vs) => some (Except.ok (v :: vs))

/-- The source's `Parse`: split into at most six space-separated parts, demand
exactly six, expand the five fields, and assemble the `Expression`.  Like Go's
`(Expression, error)` pair, the result carries the zero value `zeroExpr`
alongside every error. -/
def Parse (fuel : Nat) (s : List Char) : Option (Expression × Option Err) :=
  if (splitN ' ' 6 s).length ≠ 6 then some (zeroExpr, some Err.invalidExpression)
  else
    match expandFields fuel (splitN ' ' 6 s) [0, 1, 2, 3, 4] with
    | none => none
    | some (Except.error e) => some (zeroExpr, some e)
    | some (Except.ok vs) =>
      some ({ Minute := vs.getD 0 [], Hour := vs.getD 1 [], DayOfMonth := vs.getD 2 [],
              Month := vs.getD 3 [], DayOfWeek := vs.getD 4 [],
              Command := (splitN ' ' 6 s).getD 5 [] }, none)

/-- Decimal numeral for a natural number, used to quantify theorem statements
over numeric field texts. -/
def decRepr (n : Nat) : List Char := Nat.toDigits 10 n

/-- Rejoin pieces with a single space; inverse of `splitN ' '`, used to state
that the sixth part captures the remaining text verbatim. -/
def joinSpace : List (List Char) → List Char
  | [] => []
  | [p] => p
  | p :: ps => p ++ ' ' :: joinSpace ps

/-! ## Lemmas about the loop of `stepRange` -/

/-- Every value the `stepRange` loop appends satisfies the loop guard `x ≤ e`. -/
theorem stepRangeGo_le :
    ∀ fuel x e step l, stepRangeGo fuel x e step = some l → ∀ v ∈ l, v ≤ e := by
  intro fuel
  induction fuel with
  | zero => intro x e step l h; simp [stepRangeGo] at h
  | succ fuel ih =>
    intro x e step l h
    simp only [stepRangeGo] at h
    split at h
    · rcases Option.map_eq_some'.1 h with ⟨l1, h1, rfl⟩
      intro v hv
      rcases List.mem_cons.1 hv with rfl | hv
      · assumption
      · exact ih _ _ _ _ h1 v hv
    · injection h with h
      subst h
      simp

/-- With a positive step whose sum with the bound stays below 256 (so `x += step`
never wraps), the loop terminates within `e + 2` iterations and returns the
arithmetic progression `x, x + step, …` while `≤ e`. -/
theorem stepRangeGo_eq :
    ∀ fuel x e step, 1 ≤ step → e + step ≤ 255 → 1 ≤ fuel → e + 2 ≤ fuel + x →
      stepRangeGo fuel x e step =
        some (if x ≤ e then List.range' x ((e - x) / step + 1) step else []) := by
  intro fuel
  induction fuel with
  | zero => intro x e step h1 h2 h3 h4; omega
  | succ fuel ih =>
    intro x e step h1 h2 _ h4
    by_cases hx : x ≤ e
    · have hwrap : (x + step) % 256 = x + step := Nat.mod_eq_of_lt (by omega)
      rw [stepRangeGo, if_pos hx, hwrap, ih (x + step) e step h1 h2 (by omega) (by omega),
        if_pos hx]
      by_cases hx2 : x + step ≤ e
      · rw [if_pos hx2]
        have hdiv : (e - x) / step = (e - (x + step)) / step + 1 := by
          rw [Nat.div_eq_sub_div (by omega) (by omega), Nat.sub_add_eq]
        rw [hdiv]
        simp [List.range']
      · rw [if_neg hx2]
        have hdiv : (e - x) / step = 0 := Nat.div_eq_of_lt (by omega)
        rw [hdiv]
        simp [List.range']
    · rw [stepRangeGo, if_neg hx, if_neg hx]

/-- With step 0 and a satisfied guard the loop never advances: for every fuel
it is still running.  This is the `*/0` divergence. -/
theorem stepRangeGo_zero_step :
    ∀ fuel x e, x ≤ e → x < 256 → stepRangeGo fuel x e 0 = none := by
  intro fuel
  induction fuel with
  | zero => intro x e _ _; rfl
  | succ fuel ih =>
    intro x e hx hx2
    rw [stepRangeGo, if_pos hx, Nat.add_zero, Nat.mod_eq_of_lt hx2, ih x e hx hx2]
    rfl

/-! ## Lemmas about the string splitters -/

/-- `strings.Split` never returns an empty list of pieces. -/
theorem splitAll_ne_nil : ∀ sep s, splitAll sep s ≠ [] := by
  intro sep s
  induction s with
  | nil => simp [splitAll]
  | cons c cs ih =>
    rw [splitAll]
    split
    · simp
    · match h : splitAll sep cs with
      | [] => exact absurd h ih
      | p :: ps => simp

/-- A string without the separator is returned as the single piece. -/
theorem splitAll_not_mem : ∀ sep s, sep ∉ s → splitAll sep s = [s] := by
  intro sep s
  induction s with
  | nil => intro _; rfl
  | cons c cs ih =>
    intro h
    have hc : ¬c = sep := fun e => h (by simp [e])
    rw [splitAll, if_neg hc, ih (fun hm => h (List.mem_cons_of_mem _ hm))]

/-- Splitting at the first separator occurrence peels off the prefix. -/
theorem splitAll_append :
    ∀ sep xs ys, sep ∉ xs → splitAll sep (xs ++ sep :: ys) = xs :: splitAll sep ys := by
  intro sep xs ys
  induction xs with
  | nil => intro _; simp [splitAll]
  | cons c cs ih =>
    intro h
    have hc : ¬c = sep := fun e => h (by simp [e])
    rw [List.cons_append, splitAll, if_neg hc, ih (fun hm => h (List.mem_cons_of_mem _ hm))]

/-- `strings.SplitN` with a positive count never returns an empty list. -/
theorem splitN_ne_nil : ∀ sep n s, 1 ≤ n → splitN sep n s ≠ [] := by
  intro sep n s
  induction s generalizing n with
  | nil =>
    intro hn
    match n, hn with
    | 1, _ => simp [splitN]
    | n + 2, _ => simp [splitN]
  | cons c cs ih =>
    intro hn
    match n, hn with
    | 1, _ => simp [splitN]
    | n + 2, _ =>
      rw [splitN]
      split
      · simp
      · match h : splitN sep (n + 2) cs with
        | [] => exact absurd h (ih (n + 2) (by omega))
        | p :: ps => simp

/-- Prepending a character to the first piece commutes with `joinSpace`. -/
theorem joinSpace_cons :
    ∀ c p ps, joinSpace ((c :: p) :: ps) = c :: joinSpace (p :: ps) := by
  intro c p ps
  cases ps with
  | nil => rfl
  | cons q qs => rfl

/-- Joining the pieces of `strings.SplitN` with the separator restores the
input: nothing is lost, and in particular the final piece keeps the remaining
text verbatim. -/
theorem joinSpace_splitN : ∀ s n, 1 ≤ n → joinSpace (splitN ' ' n s) = s := by
  intro s
  induction s with
  | nil =>
    intro n hn
    match n, hn with
    | 1, _ => rfl
    | n + 2, _ => rfl
  | cons c cs ih =>
    intro n hn
    match n, hn with
    | 1, _ => rfl
    | n + 2, _ =>
      rw [splitN]
      by_cases hc : c = ' '
      · rw [if_pos hc]
        match h : splitN ' ' (n + 1) cs with
        | [] => exact absurd h (splitN_ne_nil ' ' (n + 1) cs (by omega))
        | q :: qs =>
          have := ih (n + 1) (by omega)
          rw [h] at this
          simp only [joinSpace, List.nil_append]
          rw [this, hc]
      · rw [if_neg hc]
        match h : splitN ' ' (n + 2) cs with
        | [] => exact absurd h (splitN_ne_nil ' ' (n + 2) cs (by omega))
        | q :: qs =>
          have := ih (n + 2) (by omega)
          rw [h] at this
          rw [joinSpace_cons, this]

/-! ## Lemmas about characters and the name tables -/

/-- A character whose ASCII lower-casing is a lowercase letter is itself a
letter: in particular not a digit, and none of the syntax characters the
expander dispatches on. -/
theorem toLowerChar_lower :
    ∀ c d, toLowerChar c = d → 'a' ≤ d → d ≤ 'z' →
      isDigitCh c = false ∧ c ≠ ',' ∧ c ≠ '*' ∧ c ≠ '-' ∧ c ≠ '/' ∧ c ≠ '+' := by
  intro c d h ha hz
  rw [toLowerChar] at h
  split_ifs at h with hAZ
  · refine ⟨?_, ?_, ?_, ?_, ?_, ?_⟩
    · simp only [isDigitCh, Bool.and_eq_false_iff, decide_eq_false_iff_not]
      right
      intro h9
      exact absurd (le_trans hAZ.1 h9) (by decide)
    · intro e; rw [e] at hAZ; exact absurd hAZ.1 (by decide)
    · intro e; rw [e] at hAZ; exact absurd hAZ.1 (by decide)
    · intro e; rw [e] at hAZ; exact absurd hAZ.1 (by decide)
    · intro e; rw [e] at hAZ; exact absurd hAZ.1 (by decide)
    · intro e; rw [e] at hAZ; exact absurd hAZ.1 (by decide)
  · subst h
    refine ⟨?_, ?_, ?_, ?_, ?_, ?_⟩
    · simp only [isDigitCh, Bool.and_eq_false_iff, decide_eq_false_iff_not]
      right
      intro h9
      exact absurd (le_trans ha h9) (by decide)
    · intro e; rw [e] at ha; exact absurd ha (by decide)
    · intro e; rw [e] at ha; exact absurd ha (by decide)
    · intro e; rw [e] at ha; exact absurd ha (by decide)
    · intro e; rw [e] at ha; exact absurd ha (by decide)
    · intro e; rw [e] at ha; exact absurd ha (by decide)

/-- A successful table lookup comes from a table entry. -/
theorem lookupT_mem : ∀ tbl t x, lookupT tbl t = some x → (t, x) ∈ tbl := by
  intro tbl
  induction tbl with
  | nil => intro t x h; cases h
  | cons p rest ih =>
    intro t x h
    match p with
    | (k, v) =>
      rw [lookupT] at h
      split_ifs at h with hk
      · injection h with hv
        subst hk
        subst hv
        simp
      · exact List.mem_cons_of_mem _ (ih t x h)

/-- Every hit in the month name table is a three-letter lowercase key with a
value in 1..12. -/
theorem month_key_shape : ∀ t x, monthNames t = some x →
    t.length = 3 ∧ (∀ c ∈ t, 'a' ≤ c ∧ c ≤ 'z') ∧ 1 ≤ x ∧ x ≤ 12 := by
  intro t x h
  have hall : ∀ p ∈ monthTable,
      p.1.length = 3 ∧ (∀ c ∈ p.1, 'a' ≤ c ∧ c ≤ 'z') ∧ 1 ≤ p.2 ∧ p.2 ≤ 12 := by decide
  exact hall (t, x) (lookupT_mem monthTable t x h)

/-- Every hit in the day-of-week name table is a three-letter lowercase key
with a value in 1..7. -/
theorem dow_key_shape : ∀ t x, dowNames t = some x →
    t.length = 3 ∧ (∀ c ∈ t, 'a' ≤ c ∧ c ≤ 'z') ∧ 1 ≤ x ∧ x ≤ 7 := by
  intro t x h
  have hall : ∀ p ∈ dowTable,
      p.1.length = 3 ∧ (∀ c ∈ p.1, 'a' ≤ c ∧ c ≤ 'z') ∧ 1 ≤ p.2 ∧ p.2 ≤ 7 := by decide
  exact hall (t, x) (lookupT_mem dowTable t x h)

/-- A string that lower-cases to all-lowercase letters contains none of the
dispatch characters of `expand`, and none of its characters is a digit or a
sign. -/
theorem lower_route :
    ∀ s, (∀ c ∈ toLower s, 'a' ≤ c ∧ c ≤ 'z') →
      (',' ∉ s) ∧ s ≠ ['*'] ∧ s.take 2 ≠ ['*', '/'] ∧ ('-' ∉ s) ∧
      (∀ c ∈ s, isDigitCh c = false ∧ c ≠ ',' ∧ c ≠ '*' ∧ c ≠ '-' ∧ c ≠ '/' ∧ c ≠ '+') := by
  intro s hlow
  have hfacts : ∀ c ∈ s,
      isDigitCh c = false ∧ c ≠ ',' ∧ c ≠ '*' ∧ c ≠ '-' ∧ c ≠ '/' ∧ c ≠ '+' := by
    intro c hc
    have hm : toLowerChar c ∈ toLower s := List.mem_map_of_mem toLowerChar hc
    obtain ⟨ha, hz⟩ := hlow _ hm
    exact toLowerChar_lower c (toLowerChar c) rfl ha hz
  refine ⟨?_, ?_, ?_, ?_, hfacts⟩
  · intro hm; exact absurd rfl (hfacts ',' hm).2.1
  · intro he; exact absurd rfl (hfacts '*' (by rw [he]; simp)).2.2.1
  · intro he
    have hm : '*' ∈ s.take 2 := by rw [he]; simp
    exact absurd rfl (hfacts '*' (List.take_subset 2 s hm)).2.2.1
  · intro hm; exact absurd rfl (hfacts '-' hm).2.2.2.1

/-- A field text without commas, not `*`, not starting `*/` and without `-`
reaches `expandSingle`. -/
theorem expand_single_route :
    ∀ fuel s field mn mx, (',' ∉ s) → s ≠ ['*'] → s.take 2 ≠ ['*', '/'] → ('-' ∉ s) →
      expand (fuel + 1) s field mn mx = some (expandSingle s field mn mx) := by
  intro fuel s field mn mx h1 h2 h3 h4
  rw [expand, splitAll_not_mem ',' s h1]
  simp only [List.length_singleton]
  rw [if_neg (by omega), if_neg h2, if_neg h3, if_neg h4]

/-- `atoi` fails on any string whose first character is neither a digit nor a
sign. -/
theorem atoi_head_err : ∀ c cs, isDigitCh c = false → c ≠ '+' → c ≠ '-' →
    atoi (c :: cs) = Except.error () := by
  intro c cs hd hp hm
  rw [atoi, parseInt8, if_neg hp, if_neg hm, parseDigits, if_neg (by simp),
    parseDigitsAux, if_neg (by simp [hd])]
  rfl

/-- A name-table hit (after case folding) expands to its table value on any
field whose `validNames` entry contains it, ignoring the bounds. -/
theorem expand_name :
    ∀ fuel s x field mn mx, validNames field (toLower s) = some x →
      expand (fuel + 1) s field mn mx = some (Except.ok [x]) := by
  intro fuel s x field mn mx h
  have hlow : ∀ c ∈ toLower s, 'a' ≤ c ∧ c ≤ 'z' := by
    unfold validNames at h
    split_ifs at h
    · exact (month_key_shape _ _ h).2.1
    · exact (dow_key_shape _ _ h).2.1
  obtain ⟨h1, h2, h3, h4, _⟩ := lower_route s hlow
  rw [expand_single_route fuel s field mn mx h1 h2 h3 h4, expandSingle, h]

/-- A three-letter name used on a field with no name table (minute, hour,
day-of-month) is rejected as an unrecognized value. -/
theorem expand_name_wrongfield :
    ∀ fuel s field mn mx, field < 3 →
      ((∃ x, monthNames (toLower s) = some x) ∨ (∃ x, dowNames (toLower s) = some x)) →
      expand (fuel + 1) s field mn mx = some (Except.error (Err.invalidValue s)) := by
  intro fuel s field mn mx hf hkey
  have hshape : (toLower s).length = 3 ∧ ∀ c ∈ toLower s, 'a' ≤ c ∧ c ≤ 'z' := by
    rcases hkey with ⟨x, hx⟩ | ⟨x, hx⟩
    · exact ⟨(month_key_shape _ _ hx).1, (month_key_shape _ _ hx).2.1⟩
    · exact ⟨(dow_key_shape _ _ hx).1, (dow_key_shape _ _ hx).2.1⟩
  obtain ⟨h1, h2, h3, h4, hchars⟩ := lower_route s hshape.2
  have hnone : validNames field (toLower s) = none := by
    unfold validNames
    rw [if_neg (by simp only [month]; omega), if_neg (by simp only [dayOfWeek]; omega)]
  match s, hshape.1 with
  | c :: cs, _ =>
    obtain ⟨hd, _, _, hm, _, hp⟩ := hchars c (by simp)
    rw [expand_single_route fuel (c :: cs) field mn mx h1 h2 h3 h4, expandSingle, hnone,
      atoi_head_err c cs hd hp hm]

/-! ## Upper-bound invariant -/

/-- Name-table values never exceed their field's declared maximum. -/
theorem validNames_le :
    ∀ field t x, validNames field t = some x → x ≤ (validRanges field).2 := by
  intro field t x h
  unfold validNames at h
  split_ifs at h with h3 h4
  · have hx := (month_key_shape _ _ h).2.2.2
    rw [h3]
    have h12 : (validRanges month).2 = 12 := by decide
    omega
  · have hx := (dow_key_shape _ _ h).2.2.2
    rw [h4]
    have h7 : (validRanges dayOfWeek).2 = 7 := by decide
    omega

/-- `expandSingle` at a field's own bounds only yields values at most the max. -/
theorem expandSingle_le :
    ∀ s field l,
      expandSingle s field (validRanges field).1 (validRanges field).2 = Except.ok l →
      ∀ v ∈ l, v ≤ (validRanges field).2 := by
  intro s field l h v hv
  cases hval : validNames field (toLower s) with
  | some x =>
    simp only [expandSingle, hval] at h
    injection h with h
    rw [← h] at hv
    rcases List.mem_singleton.1 hv with rfl
    exact validNames_le _ _ _ hval
  | none =>
    cases hatoi : atoi s with
    | error e => simp [expandSingle, hval, hatoi] at h
    | ok x =>
      simp only [expandSingle, hval, hatoi] at h
      split_ifs at h with hout
      · injection h with h
        subst h
        rcases List.mem_singleton.1 hv with rfl
        omega

/-- `expandAny` only yields values at most the max. -/
theorem expandAny_le :
    ∀ fuel field mn mx l, expandAny fuel field mn mx = some (Except.ok l) →
      ∀ v ∈ l, v ≤ mx := by
  intro fuel field mn mx l h v hv
  unfold expandAny at h
  rcases Option.map_eq_some'.1 h with ⟨l1, h1, h2⟩
  injection h2 with h2
  subst h2
  exact stepRangeGo_le _ _ _ _ _ h1 v hv

/-- `expandAnyStepRange` only yields values at most the max. -/
theorem expandAnyStepRange_le :
    ∀ fuel s mn mx l, expandAnyStepRange fuel s mn mx = some (Except.ok l) →
      ∀ v ∈ l, v ≤ mx := by
  intro fuel s mn mx l h v hv
  cases hatoi : atoi (s.drop 2) with
  | error e => simp [expandAnyStepRange, hatoi] at h
  | ok step =>
    simp only [expandAnyStepRange, hatoi] at h
    rcases Option.map_eq_some'.1 h with ⟨l1, h1, h2⟩
    injection h2 with h2
    subst h2
    exact stepRangeGo_le _ _ _ _ _ h1 v hv

/-- The tail of `expandRange` only yields values at most the max (they pass
the loop guard `≤ end` and the bounds check `end ≤ max`). -/
theorem finishRange_le :
    ∀ fuel start endStr step mn mx l,
      finishRange fuel start endStr step mn mx = some (Except.ok l) →
      ∀ v ∈ l, v ≤ mx := by
  intro fuel start endStr step mn mx l h v hv
  cases hatoi : atoi endStr with
  | error e => simp [finishRange, hatoi] at h
  | ok e =>
    simp only [finishRange, hatoi] at h
    split_ifs at h with h1 h2
    · simp at h
    · simp at h
    · rcases Option.map_eq_some'.1 h with ⟨l1, hl1, he⟩
      injection he with he
      subst he
      have := stepRangeGo_le _ _ _ _ _ hl1 v hv
      omega

/-- `expandRange` only yields values at most the max. -/
theorem expandRange_le :
    ∀ fuel s mn mx l, expandRange fuel s mn mx = some (Except.ok l) →
      ∀ v ∈ l, v ≤ mx := by
  intro fuel s mn mx l h v hv
  rcases hsp : splitAll '-' s with _ | ⟨p0, _ | ⟨p1, _ | ⟨p2, rest⟩⟩⟩
  · simp [expandRange, hsp] at h
  · simp [expandRange, hsp] at h
  · cases hatoi : atoi p0 with
    | error e => simp [expandRange, hsp, hatoi] at h
    | ok start =>
      simp only [expandRange, hsp, hatoi] at h
      split_ifs at h with hsl
      · rcases hsp2 : splitAll '/' p1 with _ | ⟨e0, _ | ⟨st0, _ | ⟨st1, rest2⟩⟩⟩
        · simp [hsp2] at h
        · simp [hsp2] at h
        · cases hst : atoi st0 with
          | error e => simp [hsp2, hst] at h
          | ok step =>
            simp only [hsp2, hst] at h
            exact finishRange_le _ _ _ _ _ _ _ h v hv
        · simp [hsp2] at h
      · exact finishRange_le _ _ _ _ _ _ _ h v hv
  · simp [expandRange, hsp] at h

/-- The list loop only yields values at most the max, given that the
per-piece expander does. -/
theorem expandListAux_le :
    ∀ (go : List Char → Option (Except Err (List Nat))),
      (∀ p l, go p = some (Except.ok l) → ∀ v ∈ l, v ≤ mx) →
      ∀ ps l, expandListAux go ps = some (Except.ok l) → ∀ v ∈ l, v ≤ mx := by
  intro go hgo ps
  induction ps with
  | nil =>
    intro l h v hv
    injection h with h
    injection h with h
    rw [← h] at hv
    cases hv
  | cons p ps ih =>
    intro l h v hv
    unfold expandListAux at h
    cases hp : go p with
    | none => rw [hp] at h; cases h
    | some r =>
      cases r with
      | error e => rw [hp] at h; simp at h
      | ok v1 =>
        rw [hp] at h
        simp only [] at h
        cases hps : expandListAux go ps with
        | none => rw [hps] at h; cases h
        | some r2 =>
          cases r2 with
          | error e => rw [hps] at h; simp at h
          | ok vs =>
            rw [hps] at h
            simp only [] at h
            injection h with h
            injection h with h
            rw [← h] at hv
            rcases List.mem_append.1 hv with hv | hv
            · exact hgo p v1 hp v hv
            · exact ih vs hps v hv

/-- Every successful expansion of a field, at that field's declared bounds,
only contains values at most the field's maximum. -/
theorem expand_le :
    ∀ fuel s field l,
      expand fuel s field (validRanges field).1 (validRanges field).2 =
        some (Except.ok l) →
      ∀ v ∈ l, v ≤ (validRanges field).2 := by
  intro fuel
  induction fuel with
  | zero => intro s field l h; cases h
  | succ fuel ih =>
    intro s field l h
    rw [expand] at h
    split_ifs at h with hlist hstar hslash hdash
    · exact expandListAux_le _ (fun p l hp => ih p field l hp) _ l h
    · exact expandAny_le _ _ _ _ _ h
    · exact expandAnyStepRange_le _ _ _ _ _ h
    · exact expandRange_le _ _ _ _ _ h
    · intro v hv
      injection h with h
      exact expandSingle_le s field l h v hv

/-! ## List expansion, routing and numeral lemmas -/

/-- If every comma piece expands successfully, the list loop returns the
concatenation of the per-piece results, in order. -/
theorem expandListAux_join :
    ∀ (go : List Char → Option (Except Err (List Nat))) ps ls,
      List.Forall₂ (fun p v => go p = some (Except.ok v)) ps ls →
      expandListAux go ps = some (Except.ok ls.flatten) := by
  intro go ps ls h
  induction h with
  | nil => rfl
  | cons hpv htail ih =>
    rw [expandListAux, hpv]
    rw [ih]
    simp

/-- A field text with a comma takes the list branch of `expand`. -/
theorem expand_list_route :
    ∀ fuel s field mn mx, 1 < (splitAll ',' s).length →
      expand (fuel + 1) s field mn mx =
        expandListAux (fun p => expand fuel p field mn mx) (splitAll ',' s) := by
  intro fuel s field mn mx h
  rw [expand, if_pos h]

/-- A comma-free field text starting `*/` (other than `*` itself) takes the
step-wildcard branch. -/
theorem expand_anystep_route :
    ∀ fuel s field mn mx, (',' ∉ s) → s ≠ ['*'] → s.take 2 = ['*', '/'] →
      expand (fuel + 1) s field mn mx = expandAnyStepRange fuel s mn mx := by
  intro fuel s field mn mx h1 h2 h3
  rw [expand, splitAll_not_mem ',' s h1]
  simp only [List.length_singleton]
  rw [if_neg (by omega), if_neg h2, if_pos h3]

/-- A comma-free field text containing `-`, not `*` and not starting `*/`,
takes the range branch. -/
theorem expand_range_route :
    ∀ fuel s field mn mx, (',' ∉ s) → s ≠ ['*'] → s.take 2 ≠ ['*', '/'] → '-' ∈ s →
      expand (fuel + 1) s field mn mx = expandRange fuel s mn mx := by
  intro fuel s field mn mx h1 h2 h3 h4
  rw [expand, splitAll_not_mem ',' s h1]
  simp only [List.length_singleton]
  rw [if_neg (by omega), if_neg h2, if_neg h3, if_pos h4]

/-- `atoi` on the decimal numeral of 0..127 parses to exactly that value. -/
theorem atoi_decRepr : ∀ n, n < 128 → atoi (decRepr n) = Except.ok n := by decide

/-- `atoi` on the decimal numeral of 128..255 fails: `ParseInt(_, 10, 8)` is a
signed 8-bit parse, whose range ends at 127. -/
theorem atoi_decRepr_big :
    ∀ n, n < 256 → 128 ≤ n → atoi (decRepr n) = Except.error () := by decide

/-- `atoi` on a negative numeral -1..-128 succeeds and silently wraps to
`256 - n`: the unchecked `uint8` cast of the negative parse result. -/
theorem atoi_neg_decRepr :
    ∀ n, n < 129 → 1 ≤ n → atoi ('-' :: decRepr n) = Except.ok (256 - n) := by decide

/-- Decimal numerals of 0..255 consist of base-10 digits only. -/
theorem decRepr_digits :
    ∀ n, n < 256 → ∀ c ∈ decRepr n, isDigitCh c = true := by decide

/-- Decimal numerals are nonempty. -/
theorem decRepr_ne_nil : ∀ n, n < 256 → decRepr n ≠ [] := by decide

/-- Decimal numerals of 0..255 contain none of the dispatch characters. -/
theorem decRepr_no_symbol :
    ∀ n, n < 256 → ',' ∉ decRepr n ∧ '-' ∉ decRepr n ∧ '/' ∉ decRepr n ∧ '*' ∉ decRepr n := by
  intro n hn
  refine ⟨?_, ?_, ?_, ?_⟩ <;> intro hm <;>
    exact absurd (decRepr_digits n hn _ hm) (by decide)

/-! ## Claim theorems -/

/-- C1 (amended): for every field identifier and every input string on which
field expansion succeeds at that field's declared bounds, every integer in the
returned sequence lies within [0, max] for that field's declared maximum
(minute 59, hour 23, day-of-month 31, month 12, day-of-week 7).  The declared
minimum is not a lower bound in general: see the counterexample, where a
negative step numeral wraps modulo 256 and drives the loop counter to 0. -/
theorem c1_expand_within_upper_bound :
    ∀ fuel s field l, field < 5 →
      expand fuel s field (validRanges field).1 (validRanges field).2 =
        some (Except.ok l) →
      ∀ v ∈ l, 0 ≤ v ∧ v ≤ (validRanges field).2 := by
  intro fuel s field l _ h v hv
  exact ⟨Nat.zero_le v, expand_le fuel s field l h v hv⟩

/-- C1 counterexample: on the day-of-month field (identifier 2, bounds 1-31)
the step-wildcard input with step numeral `-1` (star, slash, minus, one)
expands successfully to `[1, 0]`, and the element 0 lies
below the field's declared minimum 1, refuting the claimed invariant: `-1`
parses as int8, the `uint8` cast wraps it to step 255, and `1 + 255` wraps to
0 inside the loop while still passing the `≤ 31` guard. -/
theorem c1_counterexample :
    expand 300 ['*', '/', '-', '1'] 2 1 31 = some (Except.ok [1, 0]) ∧
      (0 : Nat) ∈ [1, 0] ∧ ¬(1 ≤ (0 : Nat)) ∧ validRanges 2 = (1, 31) := by
  exact ⟨rfl, by decide, by decide, by decide⟩

/-- C1 witness: the amended theorem applied to the minute field expanding the
single value `7`. -/
theorem c1_witness : 0 ≤ 7 ∧ 7 ≤ (validRanges 0).2 :=
  c1_expand_within_upper_bound 1 ['7'] 0 [7] (by decide) (by decide) 7 (by decide)

/-- C2 (code bug): expansion does not always terminate.  For the minute field
input `*/0` the step numeral 0 parses successfully, and the loop
`for x := start; x <= end; x += step` of `stepRange(0, 59, 0)` never advances
`x`, so expansion never returns: in the fuel embedding, for every fuel the
call is still running (`none`). -/
theorem c2_zero_step_diverges :
    ∀ fuel, expand fuel ['*', '/', '0'] 0 0 59 = none := by
  intro fuel
  cases fuel with
  | zero => rfl
  | succ fuel =>
    rw [expand_anystep_route fuel _ 0 0 59 (by decide) (by decide) (by decide)]
    have hat : atoi (List.drop 2 ['*', '/', '0']) = Except.ok 0 := by decide
    have hstep : stepRangeGo fuel 0 59 0 = none :=
      stepRangeGo_zero_step fuel 0 59 (by omega) (by omega)
    simp only [expandAnyStepRange, hat, hstep]
    rfl

/-- C10: whenever `Parse` returns a non-nil error, the returned `Expression`
is the zero value: all five field slices and the command are empty. -/
theorem c10_error_zero_expression :
    ∀ fuel s ex er, Parse fuel s = some (ex, some er) →
      ex.Minute = [] ∧ ex.Hour = [] ∧ ex.DayOfMonth = [] ∧ ex.Month = [] ∧
        ex.DayOfWeek = [] ∧ ex.Command = [] := by
  intro fuel s ex er h
  rw [Parse] at h
  split_ifs at h with hlen
  · injection h with h
    rw [Prod.mk.injEq] at h
    obtain ⟨hex, _⟩ := h
    rw [← hex]
    exact ⟨rfl, rfl, rfl, rfl, rfl, rfl⟩
  · cases hef : expandFields fuel (splitN ' ' 6 s) [0, 1, 2, 3, 4] with
    | none => rw [hef] at h; cases h
    | some r =>
      cases r with
      | error e =>
        rw [hef] at h
        simp only [] at h
        injection h with h
        rw [Prod.mk.injEq] at h
        obtain ⟨hex, _⟩ := h
        rw [← hex]
        exact ⟨rfl, rfl, rfl, rfl, rfl, rfl⟩
      | ok vs =>
        rw [hef] at h
        simp only [] at h
        injection h with h
        rw [Prod.mk.injEq] at h
        obtain ⟨_, hnone⟩ := h
        cases hnone

/-- C10 witness: the theorem applied to the input `x`, which fails the
six-part check. -/
theorem c10_witness :
    zeroExpr.Minute = [] ∧ zeroExpr.Hour = [] ∧ zeroExpr.DayOfMonth = [] ∧
      zeroExpr.Month = [] ∧ zeroExpr.DayOfWeek = [] ∧ zeroExpr.Command = [] :=
  c10_error_zero_expression 1 ['x'] zeroExpr Err.invalidExpression (by decide)

/-- The digit accumulator fails as soon as the remaining text contains a
non-digit. -/
theorem parseDigitsAux_none :
    ∀ s acc c, c ∈ s → isDigitCh c = false → parseDigitsAux s acc = none := by
  intro s
  induction s with
  | nil => intro acc c hc; cases hc
  | cons d ds ih =>
    intro acc c hc hd
    rcases List.mem_cons.1 hc with rfl | hc
    · rw [parseDigitsAux, if_neg (by simp [hd])]
    · rw [parseDigitsAux]
      split_ifs
      · exact ih _ c hc hd
      · rfl

/-- `atoi` fails on any string with a non-digit anywhere after the first
character. -/
theorem atoi_tail_err :
    ∀ s c, c ∈ s.drop 1 → isDigitCh c = false → atoi s = Except.error () := by
  intro s c hc hd
  match s with
  | [] => cases hc
  | c0 :: rest =>
    have hcr : c ∈ rest := by simpa using hc
    have haux : ∀ acc, parseDigitsAux rest acc = none :=
      fun acc => parseDigitsAux_none rest acc c hcr hd
    have haux2 : ∀ acc, parseDigitsAux (c0 :: rest) acc = none := by
      intro acc
      rw [parseDigitsAux]
      split_ifs
      · exact haux _
      · rfl
    have hpd : parseDigits rest = none := by
      rw [parseDigits]
      split_ifs with he
      · rfl
      · exact haux 0
    have hpd2 : parseDigits (c0 :: rest) = none := by
      rw [parseDigits, if_neg (by simp)]
      exact haux2 0
    rw [atoi, parseInt8]
    split_ifs <;> simp [hpd, hpd2]

/-- C3 (amended): numeric parsing is base-10 through Go's signed 8-bit
`ParseInt` followed by an unchecked `uint8` cast.  Numerals 0..127 parse to
themselves; numerals 128..255 — although they denote values of the claimed
0..255 type range — are rejected with an error; text with a non-digit
non-sign leading character, or any non-digit later character, is rejected
with an error; but negative numerals `-n` for 1 ≤ n ≤ 128 are NOT rejected:
they parse and silently wrap to 256 - n. -/
theorem c3_atoi_parse :
    (∀ n, n < 128 → atoi (decRepr n) = Except.ok n) ∧
    (∀ n, n < 256 → 128 ≤ n → atoi (decRepr n) = Except.error ()) ∧
    (∀ n, n < 129 → 1 ≤ n → atoi ('-' :: decRepr n) = Except.ok (256 - n)) ∧
    (∀ c cs, isDigitCh c = false → c ≠ '+' → c ≠ '-' →
      atoi (c :: cs) = Except.error ()) ∧
    (∀ s c, c ∈ s.drop 1 → isDigitCh c = false → atoi s = Except.error ()) :=
  ⟨atoi_decRepr, atoi_decRepr_big, atoi_neg_decRepr, atoi_head_err, atoi_tail_err⟩

/-- C3 counterexample: the decimal numeral 128 denotes a value in 0..255 but
fails to parse (the int8 parse range ends at 127), and the non-small-integer
text `-1` is not rejected: it parses and silently wraps to 255. -/
theorem c3_counterexample :
    atoi ['1', '2', '8'] = Except.error () ∧ atoi ['-', '1'] = Except.ok 255 :=
  ⟨by decide, by decide⟩

/-- C3 witness: each part of the amended theorem at a concrete input. -/
theorem c3_witness :
    atoi (decRepr 59) = Except.ok 59 ∧ atoi (decRepr 200) = Except.error () ∧
      atoi ('-' :: decRepr 2) = Except.ok 254 ∧ atoi ['x', '1'] = Except.error () ∧
      atoi ['1', 'x'] = Except.error () :=
  ⟨c3_atoi_parse.1 59 (by decide), c3_atoi_parse.2.1 200 (by decide) (by decide),
   c3_atoi_parse.2.2.1 2 (by decide) (by decide),
   c3_atoi_parse.2.2.2.1 'x' ['1'] (by decide) (by decide) (by decide),
   c3_atoi_parse.2.2.2.2 ['1', 'x'] 'x' (by decide) (by decide)⟩

/-- C6: a field text containing a comma is split on all its commas at once,
each piece is recursively expanded with the same field identifier and bounds,
and when every piece succeeds the whole expansion is the concatenation of the
sub-results in left-to-right input order, without deduplication or
re-sorting; and the spec's example `0,1,2,10-59/10` on minute expands to
`[0, 1, 2, 10, 20, 30, 40, 50]`. -/
theorem c6_list_concat :
    (∀ fuel s field mn mx ls, 1 < (splitAll ',' s).length →
      List.Forall₂ (fun p v => expand fuel p field mn mx = some (Except.ok v))
        (splitAll ',' s) ls →
      expand (fuel + 1) s field mn mx = some (Except.ok ls.flatten)) ∧
    expand 300 ['0', ',', '1', ',', '2', ',', '1', '0', '-', '5', '9', '/', '1', '0'] 0 0 59 =
      some (Except.ok [0, 1, 2, 10, 20, 30, 40, 50]) := by
  constructor
  · intro fuel s field mn mx ls hlen hall
    rw [expand_list_route fuel s field mn mx hlen]
    exact expandListAux_join _ _ _ hall
  · rfl

/-- C6 witness: the general part applied to the spec's example, with the four
per-piece expansions supplied explicitly. -/
theorem c6_witness :
    expand 300 ['0', ',', '1', ',', '2', ',', '1', '0', '-', '5', '9', '/', '1', '0'] 0 0 59 =
      some (Except.ok ([[0], [1], [2], [10, 20, 30, 40, 50]] : List (List Nat)).flatten) := by
  refine c6_list_concat.1 299 _ 0 0 59 [[0], [1], [2], [10, 20, 30, 40, 50]] (by decide) ?_
  rw [show splitAll ',' ['0', ',', '1', ',', '2', ',', '1', '0', '-', '5', '9', '/', '1', '0'] =
    [['0'], ['1'], ['2'], ['1', '0', '-', '5', '9', '/', '1', '0']] from rfl]
  exact List.Forall₂.cons rfl (List.Forall₂.cons rfl (List.Forall₂.cons rfl
    (List.Forall₂.cons rfl List.Forall₂.nil)))

/-- C7: three-letter name lookup in single-value expansion is
case-insensitive (`jaN` is month 1, `SuN` is day-of-week 7), works on any
field whose name table contains the lowercased text (only month and
day-of-week have tables), and a name used on the minute, hour or day-of-month
field fails as an unrecognized value. -/
theorem c7_names :
    (expand 300 ['j', 'a', 'N'] 3 1 12 = some (Except.ok [1])) ∧
    (expand 300 ['S', 'u', 'N'] 4 0 7 = some (Except.ok [7])) ∧
    (∀ fuel s x field mn mx, validNames field (toLower s) = some x →
      expand (fuel + 1) s field mn mx = some (Except.ok [x])) ∧
    (∀ fuel s field mn mx, field < 3 →
      ((∃ x, validNames month (toLower s) = some x) ∨
        (∃ x, validNames dayOfWeek (toLower s) = some x)) →
      expand (fuel + 1) s field mn mx = some (Except.error (Err.invalidValue s))) := by
  refine ⟨rfl, rfl, expand_name, ?_⟩
  intro fuel s field mn mx hf hkey
  apply expand_name_wrongfield fuel s field mn mx hf
  rcases hkey with ⟨x, hx⟩ | ⟨x, hx⟩
  · exact Or.inl ⟨x, hx⟩
  · exact Or.inr ⟨x, hx⟩

/-- C7 witness: case-folded lookup of `FEB` on month, and the name `sun`
rejected on the minute field. -/
theorem c7_witness :
    expand 1 ['F', 'E', 'B'] 3 1 12 = some (Except.ok [2]) ∧
      expand 1 ['s', 'u', 'n'] 0 0 59 =
        some (Except.error (Err.invalidValue ['s', 'u', 'n'])) :=
  ⟨c7_names.2.2.1 0 ['F', 'E', 'B'] 2 3 1 12 (by decide),
   c7_names.2.2.2 0 ['s', 'u', 'n'] 0 0 59 (by decide)
     (Or.inr ⟨7, by decide⟩)⟩

/-- A `validNames` hit always comes from one of the two tables, so its key is
three lowercase letters. -/
theorem validNames_shape : ∀ f t x, validNames f t = some x →
    t.length = 3 ∧ ∀ c ∈ t, 'a' ≤ c ∧ c ≤ 'z' := by
  intro f t x h
  unfold validNames at h
  split_ifs at h
  · exact ⟨(month_key_shape _ _ h).1, (month_key_shape _ _ h).2.1⟩
  · exact ⟨(dow_key_shape _ _ h).1, (dow_key_shape _ _ h).2.1⟩

/-- Field bounds are at most 59, and min ≤ max, for the five real fields. -/
theorem validRanges_facts :
    ∀ field, field < 5 →
      (validRanges field).1 ≤ (validRanges field).2 ∧ (validRanges field).2 ≤ 59 := by
  intro field hf
  interval_cases field <;> exact ⟨by decide, by decide⟩

/-- Evaluation of a step-wildcard with a positive step numeral 1..127: the
arithmetic progression from the field's min while ≤ max. -/
theorem expand_anystep_eval :
    ∀ N field, 1 ≤ N → N < 128 → field < 5 →
      expand 300 ('*' :: '/' :: decRepr N) field (validRanges field).1 (validRanges field).2 =
        some (Except.ok (List.range' (validRanges field).1
          (((validRanges field).2 - (validRanges field).1) / N + 1) N)) := by
  intro N field hN1 hN2 hf
  obtain ⟨hc, hdash, hslash, hstar⟩ := decRepr_no_symbol N (by omega)
  obtain ⟨hmn, hmx⟩ := validRanges_facts field hf
  have hnc : ',' ∉ ('*' :: '/' :: decRepr N) := by
    simp only [List.mem_cons]
    push_neg
    exact ⟨by decide, by decide, fun hm => hc hm⟩
  have hne : ('*' :: '/' :: decRepr N) ≠ ['*'] := by
    intro he
    injection he with _ he2
    exact List.cons_ne_nil _ _ he2
  rw [expand_anystep_route 299 _ field _ _ hnc hne rfl]
  have hdrop : List.drop 2 ('*' :: '/' :: decRepr N) = decRepr N := rfl
  simp only [expandAnyStepRange, hdrop, atoi_decRepr N (by omega)]
  rw [stepRangeGo_eq 299 _ _ N hN1 (by omega) (by omega) (by omega), if_pos hmn]
  rfl

/-- Evaluation of the range tail on a parseable end numeral and a positive
step: the check order and results of `expandRange` after the split. -/
theorem finishRange_eval :
    ∀ A B N mn mx, B < 128 → 1 ≤ N → N < 128 → mx ≤ 59 →
      finishRange 299 A (decRepr B) N mn mx =
        some (if A > B then Except.error (Err.invalidRangeOrder A B)
          else if mn > A ∨ A > mx ∨ mn > B ∨ B > mx then
            Except.error (Err.outsideOfRange mn mx)
          else Except.ok (List.range' A ((B - A) / N + 1) N)) := by
  intro A B N mn mx hB hN1 hN2 hmx
  simp only [finishRange, atoi_decRepr B (by omega)]
  by_cases h1 : A > B
  · rw [if_pos h1, if_pos h1]
  · rw [if_neg h1, if_neg h1]
    by_cases h2 : mn > A ∨ A > mx ∨ mn > B ∨ B > mx
    · rw [if_pos h2, if_pos h2]
    · rw [if_neg h2, if_neg h2]
      rw [stepRangeGo_eq 299 A B N hN1 (by omega) (by omega) (by omega),
        if_pos (by omega)]
      rfl

/-- The constructed numeral range strings avoid the list, wildcard and
step-wildcard branches and are split into their two numeral parts. -/
theorem range_string_route :
    ∀ fuel field mn mx (xs ys : List Char),
      (∀ c ∈ xs, isDigitCh c = true) → (∀ c ∈ ys, isDigitCh c = true ∨ c = '/') →
      xs ≠ [] →
      expand (fuel + 1) (xs ++ '-' :: ys) field mn mx =
        expandRange fuel (xs ++ '-' :: ys) mn mx := by
  intro fuel field mn mx xs ys hxs hys hne
  have hnotin : ∀ c, c ∈ xs ++ '-' :: ys → isDigitCh c = true ∨ c = '-' ∨ c = '/' := by
    intro c hc
    rcases List.mem_append.1 hc with hc | hc
    · exact Or.inl (hxs c hc)
    · rcases List.mem_cons.1 hc with rfl | hc
      · exact Or.inr (Or.inl rfl)
      · rcases hys c hc with hd | hd
        · exact Or.inl hd
        · exact Or.inr (Or.inr hd)
  have hstar : '*' ∉ xs ++ '-' :: ys := by
    intro hm
    rcases hnotin '*' hm with hd | hd | hd <;> revert hd <;> decide
  have hcomma : ',' ∉ xs ++ '-' :: ys := by
    intro hm
    rcases hnotin ',' hm with hd | hd | hd <;> revert hd <;> decide
  apply expand_range_route
  · exact hcomma
  · intro he
    exact hstar (by rw [he]; simp)
  · intro he
    exact hstar (List.take_subset 2 _ (by rw [he]; simp))
  · simp

/-- Evaluation of a plain numeral range `A-B` with parseable endpoints. -/
theorem expand_range_plain_eval :
    ∀ A B field, A < 128 → B < 128 → field < 5 →
      expand 300 (decRepr A ++ '-' :: decRepr B) field
          (validRanges field).1 (validRanges field).2 =
        some (if A > B then Except.error (Err.invalidRangeOrder A B)
          else if (validRanges field).1 > A ∨ A > (validRanges field).2 ∨
              (validRanges field).1 > B ∨ B > (validRanges field).2 then
            Except.error (Err.outsideOfRange (validRanges field).1 (validRanges field).2)
          else Except.ok (List.range' A (B - A + 1) 1)) := by
  intro A B field hA hB hf
  obtain ⟨hAc, hAd, hAs, hAst⟩ := decRepr_no_symbol A (by omega)
  obtain ⟨hBc, hBd, hBs, hBst⟩ := decRepr_no_symbol B (by omega)
  obtain ⟨_, hmx⟩ := validRanges_facts field hf
  rw [range_string_route 299 field _ _ (decRepr A) (decRepr B)
    (decRepr_digits A (by omega)) (fun c hc => Or.inl (decRepr_digits B (by omega) c hc))
    (decRepr_ne_nil A (by omega))]
  have hsplit : splitAll '-' (decRepr A ++ '-' :: decRepr B) = [decRepr A, decRepr B] := by
    rw [splitAll_append '-' _ _ hAd, splitAll_not_mem '-' _ hBd]
  simp only [expandRange, hsplit, atoi_decRepr A (by omega)]
  rw [if_neg hBs, finishRange_eval A B 1 _ _ (by omega) (by omega) (by omega) hmx,
    Nat.div_one]

/-- Evaluation of a numeral range with step `A-B/N`, all three parseable and
the step positive. -/
theorem expand_range_step_eval :
    ∀ A B N field, A < 128 → B < 128 → 1 ≤ N → N < 128 → field < 5 →
      expand 300 (decRepr A ++ '-' :: (decRepr B ++ '/' :: decRepr N)) field
          (validRanges field).1 (validRanges field).2 =
        some (if A > B then Except.error (Err.invalidRangeOrder A B)
          else if (validRanges field).1 > A ∨ A > (validRanges field).2 ∨
              (validRanges field).1 > B ∨ B > (validRanges field).2 then
            Except.error (Err.outsideOfRange (validRanges field).1 (validRanges field).2)
          else Except.ok (List.range' A ((B - A) / N + 1) N)) := by
  intro A B N field hA hB hN1 hN2 hf
  obtain ⟨hAc, hAd, hAs, hAst⟩ := decRepr_no_symbol A (by omega)
  obtain ⟨hBc, hBd, hBs, hBst⟩ := decRepr_no_symbol B (by omega)
  obtain ⟨hNc, hNd, hNs, hNst⟩ := decRepr_no_symbol N (by omega)
  obtain ⟨_, hmx⟩ := validRanges_facts field hf
  have hys : ∀ c ∈ decRepr B ++ '/' :: decRepr N, isDigitCh c = true ∨ c = '/' := by
    intro c hc
    rcases List.mem_append.1 hc with hc | hc
    · exact Or.inl (decRepr_digits B (by omega) c hc)
    · rcases List.mem_cons.1 hc with rfl | hc
      · exact Or.inr rfl
      · exact Or.inl (decRepr_digits N (by omega) c hc)
  rw [show (300 : Nat) = 299 + 1 from rfl,
    range_string_route 299 field _ _ (decRepr A) _ (decRepr_digits A (by omega)) hys
      (decRepr_ne_nil A (by omega))]
  have hsplit : splitAll '-' (decRepr A ++ '-' :: (decRepr B ++ '/' :: decRepr N)) =
      [decRepr A, decRepr B ++ '/' :: decRepr N] := by
    rw [splitAll_append '-' _ _ hAd, splitAll_not_mem]
    intro hm
    rcases List.mem_append.1 hm with hm | hm
    · exact hBd hm
    · rcases List.mem_cons.1 hm with he | hm
      · exact absurd he (by decide)
      · exact hNd hm
  simp only [expandRange, hsplit, atoi_decRepr A (by omega)]
  rw [if_pos (by simp)]
  have hsplit2 : splitAll '/' (decRepr B ++ '/' :: decRepr N) = [decRepr B, decRepr N] := by
    rw [splitAll_append '/' _ _ hBs, splitAll_not_mem '/' _ hNs]
  simp only [hsplit2, atoi_decRepr N (by omega)]
  exact finishRange_eval A B N _ _ (by omega) hN1 (by omega) hmx

/-- C4 (amended): wildcard `*` expands to exactly the full inclusive run
[min, max] for minute, hour, day-of-month and month, and to exactly
[1, 2, 3, 4, 5, 6, 7] — never including 0 — for day-of-week; and for every
step numeral N with 1 ≤ N ≤ 127 (not for N = 0, which never terminates, nor
negative numerals, which wrap), the step-wildcard expands to min, min+N,
min+2N, … while ≤ max, always including the field's minimum as its first
element however large N is. -/
theorem c4_wildcard_step :
    (expand 300 ['*'] 0 0 59 = some (Except.ok (List.range' 0 60 1))) ∧
    (expand 300 ['*'] 1 0 23 = some (Except.ok (List.range' 0 24 1))) ∧
    (expand 300 ['*'] 2 1 31 = some (Except.ok (List.range' 1 31 1))) ∧
    (expand 300 ['*'] 3 1 12 = some (Except.ok (List.range' 1 12 1))) ∧
    (expand 300 ['*'] 4 0 7 = some (Except.ok (List.range' 1 7 1))) ∧
    (∀ N field, 1 ≤ N → N < 128 → field < 5 →
      expand 300 ('*' :: '/' :: decRepr N) field
          (validRanges field).1 (validRanges field).2 =
        some (Except.ok (List.range' (validRanges field).1
          (((validRanges field).2 - (validRanges field).1) / N + 1) N)) ∧
      (List.range' (validRanges field).1
          (((validRanges field).2 - (validRanges field).1) / N + 1) N).head? =
        some (validRanges field).1) := by
  refine ⟨rfl, rfl, rfl, rfl, rfl, ?_⟩
  intro N field h1 h2 h3
  exact ⟨expand_anystep_eval N field h1 h2 h3, rfl⟩

/-- C4 counterexample: on the month field (bounds 1-12) the step numeral `-1`
parses (as int8, then cast to the uint8 step 255), but the expansion
`[1, 0]` is not the claimed progression min, min+N, … while ≤ max — for step
255 that progression is `[1]` — because the loop counter wraps modulo 256
back inside the bounds. -/
theorem c4_counterexample :
    expand 300 ['*', '/', '-', '1'] 3 1 12 = some (Except.ok [1, 0]) ∧
      List.range' 1 ((12 - 1) / 255 + 1) 255 = [1] ∧ ([1, 0] : List Nat) ≠ [1] :=
  ⟨rfl, by decide, by decide⟩

/-- C4 witness: the step part applied to minute and step 15. -/
theorem c4_witness :
    expand 300 ('*' :: '/' :: decRepr 15) 0 (validRanges 0).1 (validRanges 0).2 =
        some (Except.ok (List.range' (validRanges 0).1
          (((validRanges 0).2 - (validRanges 0).1) / 15 + 1) 15)) ∧
      (List.range' (validRanges 0).1
          (((validRanges 0).2 - (validRanges 0).1) / 15 + 1) 15).head? =
        some (validRanges 0).1 :=
  c4_wildcard_step.2.2.2.2.2 15 0 (by decide) (by decide) (by decide)

/-- C5 (amended): for every range expression `A-B` or `A-B/N` whose endpoints
parse as int8 (0 ≤ A, B ≤ 127) and whose step, when present, parses to
1 ≤ N ≤ 127: if A > B expansion fails with the "invalid range" error; else if
A or B lies outside [min, max] it fails with the "outside of range: min-max"
error naming the field's bounds; otherwise it expands to A, A+N, A+2N, …
while ≤ B, the step defaulting to 1 without a `/N` suffix.  (Endpoints above
127 fail the int8 parse first, yielding "invalid range end" instead — see the
counterexample — and N = 0 makes the loop diverge.) -/
theorem c5_range :
    ∀ field A B, field < 5 → A < 128 → B < 128 →
      (expand 300 (decRepr A ++ '-' :: decRepr B) field
          (validRanges field).1 (validRanges field).2 =
        some (if A > B then Except.error (Err.invalidRangeOrder A B)
          else if (validRanges field).1 > A ∨ A > (validRanges field).2 ∨
              (validRanges field).1 > B ∨ B > (validRanges field).2 then
            Except.error (Err.outsideOfRange (validRanges field).1 (validRanges field).2)
          else Except.ok (List.range' A (B - A + 1) 1))) ∧
      (∀ N, 1 ≤ N → N < 128 →
        expand 300 (decRepr A ++ '-' :: (decRepr B ++ '/' :: decRepr N)) field
            (validRanges field).1 (validRanges field).2 =
          some (if A > B then Except.error (Err.invalidRangeOrder A B)
            else if (validRanges field).1 > A ∨ A > (validRanges field).2 ∨
                (validRanges field).1 > B ∨ B > (validRanges field).2 then
              Except.error (Err.outsideOfRange (validRanges field).1 (validRanges field).2)
            else Except.ok (List.range' A ((B - A) / N + 1) N))) := by
  intro field A B hf hA hB
  exact ⟨expand_range_plain_eval A B field hA hB hf,
    fun N hN1 hN2 => expand_range_step_eval A B N field hA hB hN1 hN2 hf⟩

/-- C5 counterexample: the minute range `5-300` has integer endpoint 300
outside [0, 59], but expansion fails with the "invalid range end: 300" error,
not the claimed "outside of range: 0-59" error: `atoi` rejects 300 before the
bounds check is reached. -/
theorem c5_counterexample :
    expand 300 ['5', '-', '3', '0', '0'] 0 0 59 =
        some (Except.error (Err.invalidRangeEnd ['3', '0', '0'])) ∧
      Err.invalidRangeEnd ['3', '0', '0'] ≠ Err.outsideOfRange 0 59 :=
  ⟨rfl, by decide⟩

/-- C5 witness: both parts on minute, at `10-59`, reversed `20-10`,
out-of-bounds `10-60` and stepped `10-59/10`. -/
theorem c5_witness :
    (expand 300 (decRepr 10 ++ '-' :: decRepr 59) 0 (validRanges 0).1 (validRanges 0).2 =
      some (if 10 > 59 then Except.error (Err.invalidRangeOrder 10 59)
        else if (validRanges 0).1 > 10 ∨ 10 > (validRanges 0).2 ∨
            (validRanges 0).1 > 59 ∨ 59 > (validRanges 0).2 then
          Except.error (Err.outsideOfRange (validRanges 0).1 (validRanges 0).2)
        else Except.ok (List.range' 10 (59 - 10 + 1) 1))) ∧
    (expand 300 (decRepr 10 ++ '-' :: (decRepr 59 ++ '/' :: decRepr 10)) 0
        (validRanges 0).1 (validRanges 0).2 =
      some (if 10 > 59 then Except.error (Err.invalidRangeOrder 10 59)
        else if (validRanges 0).1 > 10 ∨ 10 > (validRanges 0).2 ∨
            (validRanges 0).1 > 59 ∨ 59 > (validRanges 0).2 then
          Except.error (Err.outsideOfRange (validRanges 0).1 (validRanges 0).2)
        else Except.ok (List.range' 10 ((59 - 10) / 10 + 1) 10))) :=
  ⟨(c5_range 0 10 59 (by decide) (by decide) (by decide)).1,
   (c5_range 0 10 59 (by decide) (by decide) (by decide)).2 10 (by decide) (by decide)⟩

/-- C8 (amended): names never work as range endpoints — for every range
expression with three-letter names on both sides of the dash, expansion fails
with the "invalid range start" error — but, contrary to the original claim,
names DO expand inside comma-separated lists, because each list element is
recursively expanded as a single value. -/
theorem c8_names_ranges_lists :
    (∀ fuel s1 s2 x1 x2 f g field mn mx,
      validNames f (toLower s1) = some x1 → validNames g (toLower s2) = some x2 →
      expand (fuel + 1) (s1 ++ '-' :: s2) field mn mx =
        some (Except.error (Err.invalidRangeStart s1))) ∧
    (∀ fuel s1 s2 x1 x2 field mn mx,
      validNames field (toLower s1) = some x1 → validNames field (toLower s2) = some x2 →
      expand (fuel + 2) (s1 ++ ',' :: s2) field mn mx = some (Except.ok [x1, x2])) := by
  constructor
  · intro fuel s1 s2 x1 x2 f g field mn mx h1 h2
    obtain ⟨hlen1, hlow1⟩ := validNames_shape f _ x1 h1
    obtain ⟨hlen2, hlow2⟩ := validNames_shape g _ x2 h2
    obtain ⟨hc1, _, _, hd1, hchars1⟩ := lower_route s1 hlow1
    obtain ⟨hc2, _, _, hd2, hchars2⟩ := lower_route s2 hlow2
    have hstar : '*' ∉ s1 ++ '-' :: s2 := by
      intro hm
      rcases List.mem_append.1 hm with hm | hm
      · exact absurd rfl (hchars1 '*' hm).2.2.1
      · rcases List.mem_cons.1 hm with he | hm
        · exact absurd he (by decide)
        · exact absurd rfl (hchars2 '*' hm).2.2.1
    have hcomma : ',' ∉ s1 ++ '-' :: s2 := by
      intro hm
      rcases List.mem_append.1 hm with hm | hm
      · exact hc1 hm
      · rcases List.mem_cons.1 hm with he | hm
        · exact absurd he (by decide)
        · exact hc2 hm
    rw [expand_range_route fuel _ field mn mx hcomma
      (fun he => hstar (by rw [he]; simp))
      (fun he => hstar (List.take_subset 2 _ (by rw [he]; simp)))
      (by simp)]
    have hsplit : splitAll '-' (s1 ++ '-' :: s2) = [s1, s2] := by
      rw [splitAll_append '-' _ _ hd1, splitAll_not_mem '-' _ hd2]
    have hs1len : s1.length = 3 := by
      have := congrArg List.length (rfl : toLower s1 = toLower s1)
      simp only [toLower, List.length_map] at hlen1 ⊢
      omega
    match s1, hs1len with
    | c :: cs, _ =>
      obtain ⟨hdg, _, _, hm, _, hp⟩ := hchars1 c (by simp)
      simp only [expandRange, hsplit, atoi_head_err c cs hdg hp hm]
  · intro fuel s1 s2 x1 x2 field mn mx h1 h2
    obtain ⟨hlen1, hlow1⟩ := validNames_shape field _ x1 h1
    obtain ⟨hlen2, hlow2⟩ := validNames_shape field _ x2 h2
    obtain ⟨hc1, _, _, _, _⟩ := lower_route s1 hlow1
    obtain ⟨hc2, _, _, _, _⟩ := lower_route s2 hlow2
    have hsplit : splitAll ',' (s1 ++ ',' :: s2) = [s1, s2] := by
      rw [splitAll_append ',' _ _ hc1, splitAll_not_mem ',' _ hc2]
    rw [expand_list_route (fuel + 1) _ field mn mx (by rw [hsplit]; simp), hsplit]
    have hall : List.Forall₂
        (fun p v => expand (fuel + 1) p field mn mx = some (Except.ok v))
        [s1, s2] [[x1], [x2]] :=
      List.Forall₂.cons (expand_name fuel s1 x1 field mn mx h1)
        (List.Forall₂.cons (expand_name fuel s2 x2 field mn mx h2) List.Forall₂.nil)
    rw [expandListAux_join _ _ _ hall]
    rfl

/-- C8 counterexample: on the month field, the comma list `jan,feb` of two
names expands successfully to `[1, 2]` — names do participate inside lists,
refuting the claim that they never expand there. -/
theorem c8_counterexample :
    expand 300 ['j', 'a', 'n', ',', 'f', 'e', 'b'] 3 1 12 = some (Except.ok [1, 2]) := rfl

/-- C8 witness: `mon-wed` on day-of-week fails as a range start, and
`jan,feb` on month expands through the list branch. -/
theorem c8_witness :
    expand 300 (['m', 'o', 'n'] ++ '-' :: ['w', 'e', 'd']) 4 0 7 =
        some (Except.error (Err.invalidRangeStart ['m', 'o', 'n'])) ∧
      expand 300 (['j', 'a', 'n'] ++ ',' :: ['f', 'e', 'b']) 3 1 12 =
        some (Except.ok [1, 2]) :=
  ⟨c8_names_ranges_lists.1 299 ['m', 'o', 'n'] ['w', 'e', 'd'] 1 3 4 4 4 0 7
      (by decide) (by decide),
   c8_names_ranges_lists.2 298 ['j', 'a', 'n'] ['f', 'e', 'b'] 1 2 3 1 12
      (by decide) (by decide)⟩

/-- C9: `Parse` splits its input into at most six single-space-delimited
parts whose space-joining restores the input verbatim (so the sixth part
keeps the remaining text, spaces included); with fewer than six parts it
fails with the "invalid expression" error; and when the first five parts are
present, a failure in field i (all earlier fields succeeding) aborts the
parse with that field's error wrapped with its numeric index. -/
theorem c9_parse_shape :
    (∀ s, joinSpace (splitN ' ' 6 s) = s) ∧
    (∀ fuel s, (splitN ' ' 6 s).length < 6 →
      Parse fuel s = some (zeroExpr, some Err.invalidExpression)) ∧
    (∀ fuel s i e, (splitN ' ' 6 s).length = 6 → i < 5 →
      (∀ j, j < i → ∃ v, expand fuel ((splitN ' ' 6 s).getD j []) j
          (validRanges j).1 (validRanges j).2 = some (Except.ok v)) →
      expand fuel ((splitN ' ' 6 s).getD i []) i
          (validRanges i).1 (validRanges i).2 = some (Except.error e) →
      Parse fuel s = some (zeroExpr, some (Err.fieldErr i e))) := by
  refine ⟨fun s => joinSpace_splitN s 6 (by omega), ?_, ?_⟩
  · intro fuel s h
    rw [Parse, if_pos (by omega)]
  · intro fuel s i e hlen hi hok herr
    rw [Parse, if_neg (by omega)]
    suffices hef : expandFields fuel (splitN ' ' 6 s) [0, 1, 2, 3, 4] =
        some (Except.error (Err.fieldErr i e)) by rw [hef]
    interval_cases i
    · simp only [expandFields, herr]
    · obtain ⟨v0, h0⟩ := hok 0 (by omega)
      simp only [expandFields, h0, herr]
    · obtain ⟨v0, h0⟩ := hok 0 (by omega)
      obtain ⟨v1, h1⟩ := hok 1 (by omega)
      simp only [expandFields, h0, h1, herr]
    · obtain ⟨v0, h0⟩ := hok 0 (by omega)
      obtain ⟨v1, h1⟩ := hok 1 (by omega)
      obtain ⟨v2, h2⟩ := hok 2 (by omega)
      simp only [expandFields, h0, h1, h2, herr]
    · obtain ⟨v0, h0⟩ := hok 0 (by omega)
      obtain ⟨v1, h1⟩ := hok 1 (by omega)
      obtain ⟨v2, h2⟩ := hok 2 (by omega)
      obtain ⟨v3, h3⟩ := hok 3 (by omega)
      simp only [expandFields, h0, h1, h2, h3, herr]

/-- C9 witness: join-inverse on a two-part input, the five-token failure, and
a minute-field failure wrapped with index 0 on a six-part input whose command
contains a space. -/
theorem c9_witness :
    joinSpace (splitN ' ' 6 ['a', ' ', 'b']) = ['a', ' ', 'b'] ∧
      Parse 1 ['a', ' ', 'b'] = some (zeroExpr, some Err.invalidExpression) ∧
      Parse 300 ['6', '1', ' ', '*', ' ', '*', ' ', '*', ' ', '*', ' ', 'g', 'o', ' ', 'x'] =
        some (zeroExpr, some (Err.fieldErr 0 (Err.outsideOfRange 0 59))) :=
  ⟨c9_parse_shape.1 ['a', ' ', 'b'],
   c9_parse_shape.2.1 1 ['a', ' ', 'b'] (by decide),
   c9_parse_shape.2.2 300 ['6', '1', ' ', '*', ' ', '*', ' ', '*', ' ', '*', ' ', 'g', 'o', ' ', 'x']
     0 (Err.outsideOfRange 0 59) (by decide) (by decide)
     (fun j hj => absurd hj (by omega)) (by decide)⟩

end Cron
